import Mathlib

/-!
Verification of the medical insurance analysis pipeline (finaldraft.py).

The program loads a CSV file into a data frame, coerces the charges column
to floating point and the age column to integer, saves the result, computes
summary statistics (mean age, sex counts, unique regions, mean charges),
renders two grouped bar charts, and repeats the analysis daily at 09:00 via
a one-second polling loop.

We model a data frame row-major: a header of column names and a list of
rows, each row a list of scalar values.  Floating-point numbers are modelled
as rationals, integer cells as integers, and everything else as strings.
-/

set_option maxRecDepth 4000

namespace Insurance

/-- A scalar cell of the data frame: string, integer, or floating-point
(modelled as a rational). -/
inductive Value where
  | VStr : String → Value
  | VInt : Int → Value
  | VFloat : ℚ → Value
deriving DecidableEq, Repr

/-- Row-major model of a pandas DataFrame: named columns and rows of cells. -/
structure Table where
  header : List String
  rows : List (List Value)
deriving DecidableEq, Repr

/-- Decidable equality for fallible results, so that concrete runs can be
checked by evaluation. -/
instance {ε α : Type} [DecidableEq ε] [DecidableEq α] :
    DecidableEq (Except ε α) := fun a b =>
  match a, b with
  | .ok x, .ok y =>
    if h : x = y then isTrue (by rw [h])
    else isFalse (fun hh => by cases hh; exact h rfl)
  | .error e, .error f =>
    if h : e = f then isTrue (by rw [h])
    else isFalse (fun hh => by cases hh; exact h rfl)
  | .ok _, .error _ => isFalse (fun hh => by cases hh)
  | .error _, .ok _ => isFalse (fun hh => by cases hh)

/-- Index of the first occurrence of a column name in the header. -/
def colIndex : List String → String → Nat
  | [], _ => 0
  | x :: xs, c => if x = c then 0 else colIndex xs c + 1

/-- Column lookup, `df[c]`: the cells of column `c`, or `none` (KeyError)
when the header does not contain `c`. -/
def Table.col? (t : Table) (c : String) : Option (List Value) :=
  if c ∈ t.header then
    some (t.rows.map (fun r => r.getD (colIndex t.header c) (Value.VStr "")))
  else none

/-- Replace column `c` of each row with the corresponding entry of `vs`
(the in-place assignment `df[c] = vs`). -/
def setColRows (i : Nat) : List (List Value) → List Value → List (List Value)
  | [], _ => []
  | r :: rs, [] => r :: rs
  | r :: rs, v :: vs => r.set i v :: setColRows i rs vs

/-- The table after the in-place column assignment `df[c] = vs`. -/
def Table.setCol (t : Table) (c : String) (vs : List Value) : Table :=
  { header := t.header, rows := setColRows (colIndex t.header c) t.rows vs }

/-! ### Numeric string parsing (for astype and read_csv type inference) -/

/-- Value of a decimal digit character, `none` for non-digits. -/
def digitVal (c : Char) : Option Nat :=
  if c.isDigit then some (c.toNat - 48) else none

/-- Read a digit string left to right accumulating its value. -/
def natOfDigits : List Char → Nat → Option Nat
  | [], acc => some acc
  | c :: cs, acc =>
    match digitVal c with
    | some d => natOfDigits cs (acc * 10 + d)
    | none => none

/-- Parse a non-empty string of decimal digits. -/
def parseNatChars (cs : List Char) : Option Nat :=
  if cs = [] then none else natOfDigits cs 0

/-- Parse an optionally signed integer literal. -/
def parseIntChars : List Char → Option Int
  | '-' :: rest => (parseNatChars rest).map (fun n => -(n : Int))
  | cs => (parseNatChars cs).map (fun n => (n : Int))

/-- Parse an unsigned decimal literal, with an optional fractional part.
The value of `n.f` with `k` fractional digits is `(n * 10 ^ k + f) / 10 ^ k`,
built with `mkRat` so that it evaluates by kernel reduction. -/
def parsePosFloatChars (cs : List Char) : Option ℚ :=
  let ip := cs.takeWhile (fun c => c != '.')
  match cs.dropWhile (fun c => c != '.') with
  | [] => (parseNatChars ip).map (fun n => (n : ℚ))
  | _ :: fp =>
    match parseNatChars ip, parseNatChars fp with
    | some n, some f =>
      some (mkRat ((n : Int) * 10 ^ fp.length + (f : Int)) (10 ^ fp.length))
    | _, _ => none

/-- Parse an optionally signed decimal literal. -/
def parseFloatChars : List Char → Option ℚ
  | '-' :: rest => (parsePosFloatChars rest).map (fun q => -q)
  | cs => parsePosFloatChars cs

/-! ### The Transformer (process_data) -/

/-- Coercion of one cell by `astype(float)`: integers widen, floats stay,
strings must parse as decimal literals. -/
def toFloatV : Value → Option Value
  | .VInt n => some (.VFloat (n : ℚ))
  | .VFloat q => some (.VFloat q)
  | .VStr s => (parseFloatChars s.toList).map Value.VFloat

/-- Coercion of one cell by `astype(int)`: integers stay, floats truncate
toward zero, strings must parse as integer literals. -/
def toIntV : Value → Option Value
  | .VInt n => some (.VInt n)
  | .VFloat q => some (.VInt (q.num.tdiv (q.den : Int)))
  | .VStr s => (parseIntChars s.toList).map Value.VInt

/-- Convert every cell of a column, failing when any single cell fails
(the all-or-nothing semantics of `astype`). -/
def convList (f : Value → Option Value) : List Value → Option (List Value)
  | [] => some []
  | v :: vs =>
    match f v, convList f vs with
    | some w, some ws => some (w :: ws)
    | _, _ => none

/-- Model of `df[c] = df[c].astype(...)`: look the column up (KeyError when absent),
convert every cell (conversion error when any cell fails), and assign the
result back in place. -/
def convertCol (f : Value → Option Value) (t : Table) (c : String) :
    Except String Table :=
  match t.col? c with
  | none => .error ("KeyError: " ++ c)
  | some vs =>
    match convList f vs with
    | none => .error ("TypeConversionError: " ++ c)
    | some ws => .ok (t.setCol c ws)

/-- State-level model of `process_data`: the first component is the table the
caller observes after the call (the charges assignment happens in place
before the age conversion is attempted), the second the raised error. -/
def process_data_state (t : Table) : Table × Option String :=
  match convertCol toFloatV t "charges" with
  | .error e => (t, some e)
  | .ok t1 =>
    match convertCol toIntV t1 "age" with
    | .error e => (t1, some e)
    | .ok t2 => (t2, none)

/-- Model of `process_data`: cast charges to float then age to int, re-raising on
any failure. -/
def process_data (t : Table) : Except String Table :=
  match process_data_state t with
  | (_, some e) => .error e
  | (t2, none) => .ok t2

/-! ### Persister and Loader (save_data / load_data) -/

/-- Decimal digits of the fractional remainder `r / d`, fuel-bounded. -/
def fracDigits (d : Nat) : Nat → Nat → List Char
  | _, 0 => []
  | r, fuel + 1 =>
    if r = 0 then []
    else Char.ofNat (48 + 10 * r / d) :: fracDigits d (10 * r % d) fuel

/-- Decimal rendering of a non-negative rational `n / d`, always with a
decimal point (floats print as `12.0`, `12.5`, ...). -/
def renderPosRat (n d : Nat) : String :=
  let ds := fracDigits d (n % d) 30
  toString (n / d) ++ "." ++ (if ds = [] then "0" else String.mk ds)

/-- Rendering of one cell as a CSV field, as `to_csv` writes it. -/
def render : Value → String
  | .VStr s => s
  | .VInt n => toString n
  | .VFloat q =>
    if q.num < 0 then "-" ++ renderPosRat q.num.natAbs q.den
    else renderPosRat q.num.toNat q.den

/-- Type inference of one CSV field, as `read_csv` reads it: integer
literal, else decimal literal, else string. -/
def parseCell (s : String) : Value :=
  match parseIntChars s.toList with
  | some n => .VInt n
  | none =>
    match parseFloatChars s.toList with
    | some q => .VFloat q
    | none => .VStr s

/-- Model of `save_data` with `index=False`: the file is the header row followed by
one record per row, no row-index column.  The file is modelled as its
parsed grid of fields. -/
def save_data (t : Table) : List (List String) :=
  t.header :: t.rows.map (fun r => r.map render)

/-- Model of `load_data`: the first record is the header, every later record is a row
of type-inferred cells; an empty file is a parse error. -/
def load_data : List (List String) → Except String Table
  | [] => .error "EmptyDataError"
  | h :: rs => .ok { header := h, rows := rs.map (fun r => r.map parseCell) }

/-! ### The Analyzer (class PatientsInfo) -/

/-- Numeric reading of a cell for mean computations (strings are not
numeric). -/
def toQ : Value → Option ℚ
  | .VInt n => some ((n : Int) : ℚ)
  | .VFloat q => some q
  | .VStr _ => none

/-- Numeric reading with a default, for stating what a mean evaluates to on
an all-numeric column. -/
def toQD (v : Value) : ℚ := (toQ v).getD 0

/-- Extract the numeric contents of a column, failing on any non-numeric
cell. -/
def numsOf : List Value → Option (List ℚ)
  | [] => some []
  | v :: vs =>
    match toQ v, numsOf vs with
    | some q, some qs => some (q :: qs)
    | _, _ => none

/-- Rational addition written with `mkRat` so that it evaluates by kernel
reduction; `qAdd_eq` below proves it is ordinary addition on `ℚ`. -/
def qAdd (a b : ℚ) : ℚ :=
  mkRat (a.num * (b.den : Int) + b.num * (a.den : Int)) (a.den * b.den)

/-- Sum of a list of rationals, via `qAdd`. -/
def qSum : List ℚ → ℚ
  | [] => 0
  | q :: qs => qAdd q (qSum qs)

/-- Division of a rational by a natural number, written with `mkRat`;
`qDivNat_eq` below proves it is ordinary division on `ℚ`. -/
def qDivNat (a : ℚ) (n : Nat) : ℚ := mkRat a.num (a.den * n)

/-- Model of `Series.mean()`: sum over count; errors on non-numeric content, and on
an empty column (where pandas would produce NaN). -/
def colMean (l : List Value) : Except String ℚ :=
  match numsOf l with
  | none => .error "TypeError: non-numeric column"
  | some [] => .error "NaN: mean of empty column"
  | some qs => .ok (qDivNat (qSum qs) qs.length)

/-- Model of `round(x, 2)`: round to two decimal places, written with integer floor
division so that it evaluates by kernel reduction; `round2_eq` below proves
it equals `round (q * 100) / 100`. -/
def round2 (q : ℚ) : ℚ :=
  mkRat ((200 * q.num + (q.den : Int)) / (2 * (q.den : Int))) 100

/-- Mean of a column stated directly as sum over length, for comparison. -/
def specMean (l : List Value) : ℚ := (l.map toQD).sum / (l.length : ℚ)

/-- Fuel-bounded worker for first-encounter deduplication: take the head,
drop its later duplicates, recurse.  The fuel only makes the recursion
structural; `pdUniqueF_congr` shows any sufficient fuel gives the same
result. -/
def pdUniqueF : Nat → List Value → List Value
  | _, [] => []
  | 0, _ :: _ => []
  | fuel + 1, x :: xs => x :: pdUniqueF fuel (xs.filter (fun y => y != x))

/-- Distinct values in first-encounter order, as `Series.unique()`. -/
def pdUnique (l : List Value) : List Value := pdUniqueF l.length l

/-- Index of the first occurrence of a value in a list. -/
def firstIdx : List Value → Value → Nat
  | [], _ => 0
  | x :: xs, v => if x = v then 0 else firstIdx xs v + 1

/-- Stable insertion of a key-count pair into a count-descending list: the
new pair goes before every pair of equal or smaller count. -/
def insertDesc (p : Value × Nat) : List (Value × Nat) → List (Value × Nat)
  | [] => [p]
  | q :: qs => if p.2 < q.2 then q :: insertDesc p qs else p :: q :: qs

/-- Stable sort of key-count pairs by descending count. -/
def sortCountsDesc : List (Value × Nat) → List (Value × Nat)
  | [] => []
  | p :: ps => insertDesc p (sortCountsDesc ps)

/-- Model of `Series.value_counts().to_dict()`: each distinct value with its number
of occurrences, ordered by descending count, ties in first-encounter
order. -/
def value_counts (l : List Value) : List (Value × Nat) :=
  sortCountsDesc ((pdUnique l).map (fun v => (v, l.count v)))

/-- Model of `analyze_ages`: mean of the age column rounded to two decimals. -/
def analyze_ages (t : Table) : Except String ℚ :=
  match t.col? "age" with
  | none => .error "KeyError: age"
  | some l =>
    match colMean l with
    | .error e => .error e
    | .ok m => .ok (round2 m)

/-- Model of `analyze_sexes`: counts per distinct value of the sex column. -/
def analyze_sexes (t : Table) : Except String (List (Value × Nat)) :=
  match t.col? "sex" with
  | none => .error "KeyError: sex"
  | some l => .ok (value_counts l)

/-- Model of `unique_regions`: distinct region values in first-encounter order. -/
def unique_regions (t : Table) : Except String (List Value) :=
  match t.col? "region" with
  | none => .error "KeyError: region"
  | some l => .ok (pdUnique l)

/-- Model of `average_charges`: mean of the charges column rounded to two
decimals. -/
def average_charges (t : Table) : Except String ℚ :=
  match t.col? "charges" with
  | none => .error "KeyError: charges"
  | some l =>
    match colMean l with
    | .error e => .error e
    | .ok m => .ok (round2 m)

/-- Model of `create_dictionary`: the table as a mapping from column name to that
column holds. -/
def create_dictionary (t : Table) : List (String × List Value) :=
  t.header.map (fun c => (c, (t.col? c).getD []))

/-- The four summary values logged by `automated_analysis`, in the order
they are computed. -/
structure Report where
  avgAge : ℚ
  sexDist : List (Value × Nat)
  avgCharges : ℚ
  regions : List Value
deriving DecidableEq, Repr

/-- The Analyzer part of `automated_analysis`: the four queries in source
order, each propagating its error. -/
def analysisReport (t : Table) : Except String Report :=
  match analyze_ages t with
  | .error e => .error e
  | .ok a =>
    match analyze_sexes t with
    | .error e => .error e
    | .ok s =>
      match average_charges t with
      | .error e => .error e
      | .ok c =>
        match unique_regions t with
        | .error e => .error e
        | .ok r => .ok { avgAge := a, sexDist := s, avgCharges := c, regions := r }

/-! ### The Visualizer (visualize_data) -/

/-- The charges cells of the rows whose key column equals `g`
(`df.groupby(key)` restricted to one group). -/
def groupRows (ks cs : List Value) (g : Value) : List Value :=
  ((ks.zip cs).filter (fun p => p.1 == g)).map (fun p => p.2)

/-- Mean charges for each group in turn, failing as soon as one group
fails. -/
def groupMeans (ks cs : List Value) : List Value → Except String (List (Value × ℚ))
  | [] => .ok []
  | g :: gs =>
    match colMean (groupRows ks cs g) with
    | .error e => .error e
    | .ok m =>
      match groupMeans ks cs gs with
      | .error e => .error e
      | .ok rest => .ok ((g, m) :: rest)

/-- One bar chart: `df.groupby(key)["charges"].mean()`, a KeyError when
either column is missing. -/
def chartByGroup (t : Table) (key : String) : Except String (List (Value × ℚ)) :=
  match t.col? key with
  | none => .error ("KeyError: " ++ key)
  | some ks =>
    match t.col? "charges" with
    | none => .error "KeyError: charges"
    | some cs => groupMeans ks cs (pdUnique ks)

/-- What the Visualizer run left behind: how many charts were shown and the
error it caught and logged, if any. -/
structure VizOutcome where
  chartsShown : Nat
  loggedError : Option String
deriving DecidableEq, Repr

/-- Model of `visualize_data`: region chart then smoker chart inside one try block;
any failure is logged and swallowed, never re-raised, so the result type is
total. -/
def visualize_data (t : Table) : VizOutcome :=
  match chartByGroup t "region" with
  | .error e => { chartsShown := 0, loggedError := some e }
  | .ok _ =>
    match chartByGroup t "smoker" with
    | .error e => { chartsShown := 1, loggedError := some e }
    | .ok _ => { chartsShown := 2, loggedError := none }

/-- Model of `automated_analysis`: the four Analyzer queries (errors propagate), then
the Visualizer (errors already swallowed inside). -/
def automated_analysis (t : Table) : Except String (Report × VizOutcome) :=
  match analysisReport t with
  | .error e => .error e
  | .ok r => .ok (r, visualize_data t)

/-! ### The Orchestrator (main) and the scheduling loop -/

/-- Observable outcome of the startup phase of `main`, given the table the
Loader returned: whether a file was written, whether the Analyzer stage was
reached, and the error that aborted startup, if any. -/
structure RunOutcome where
  fileWritten : Option (List (List String))
  analyzerRan : Bool
  errorMsg : Option String
deriving DecidableEq, Repr

/-- Startup phase of `main` after the Loader: process, then save, then the
first `automated_analysis`; an error in `process_data` propagates and no
later stage runs. -/
def mainStartup (t : Table) : RunOutcome :=
  match process_data t with
  | .error e => { fileWritten := none, analyzerRan := false, errorMsg := some e }
  | .ok t2 => { fileWritten := some (save_data t2), analyzerRan := true, errorMsg := none }

/-- Pipeline stages observable in a trace of the steady-state loop. -/
inductive Event where
  | loadFile : Event
  | transformEv : Event
  | persistEv : Event
  | analyzeEv : Table → Event
  | visualizeEv : Table → Event
deriving DecidableEq, Repr

/-- The events one invocation of the scheduled callback
`lambda: automated_analysis(df)` produces: it analyzes and visualizes the
captured table, nothing else. -/
def automatedEvents (captured : Table) : List Event :=
  [Event.analyzeEv captured, Event.visualizeEv captured]

/-- The single registered job: the absolute second at which it next runs. -/
structure Job where
  nextRun : Nat
deriving DecidableEq, Repr

def secondsPerDay : Nat := 86400

/-- Model of `schedule.run_pending()` for the single daily job at one poll instant:
if the current time has reached the scheduled instant, the job fires and is
re-armed one day later. -/
def run_pending (j : Job) (now : Nat) : Job × Bool :=
  if j.nextRun ≤ now then ({ nextRun := j.nextRun + secondsPerDay }, true)
  else (j, false)

/-- The poll instants at which the job fires, over a list of poll times. -/
def fireTimes (j : Job) : List Nat → List Nat
  | [] => []
  | now :: rest =>
    match run_pending j now with
    | (j2, true) => now :: fireTimes j2 rest
    | (j2, false) => fireTimes j2 rest

/-- Event trace of the steady-state polling loop over a list of poll times:
each firing runs the callback over the captured table. -/
def runLoop (captured : Table) (j : Job) : List Nat → List Event
  | [] => []
  | now :: rest =>
    match run_pending j now with
    | (j2, true) => automatedEvents captured ++ runLoop captured j2 rest
    | (j2, false) => runLoop captured j2 rest

/-- 09:00:00 local, in seconds since midnight. -/
def nineAM : Nat := 9 * 3600

/-- Consecutive one-second poll instants starting at `a`. -/
def pollTimes : Nat → Nat → List Nat
  | _, 0 => []
  | a, n + 1 => a :: pollTimes (a + 1) n

/-! ### Concrete tables used to evaluate the theorems -/

/-- A well-formed two-row input table, as loaded from a CSV file. -/
def sampleTable : Table :=
  { header := ["age", "sex", "region", "charges", "smoker"],
    rows := [
      [Value.VStr "19", Value.VStr "female", Value.VStr "southwest",
        Value.VStr "16884.92", Value.VStr "yes"],
      [Value.VStr "18", Value.VStr "male", Value.VStr "southeast",
        Value.VStr "1725.55", Value.VStr "no"]] }

/-- The table `sampleTable` after the Transformer: age integer, charges float. -/
def sampleProcessed : Table :=
  { header := ["age", "sex", "region", "charges", "smoker"],
    rows := [
      [Value.VInt 19, Value.VStr "female", Value.VStr "southwest",
        Value.VFloat (mkRat 422123 25), Value.VStr "yes"],
      [Value.VInt 18, Value.VStr "male", Value.VStr "southeast",
        Value.VFloat (mkRat 34511 20), Value.VStr "no"]] }

/-- A table whose age column holds the non-numeric text `abc` while its
charges column converts fine. -/
def sampleBadAge : Table :=
  { header := ["age", "sex", "region", "charges", "smoker"],
    rows := [
      [Value.VStr "abc", Value.VStr "male", Value.VStr "west",
        Value.VStr "1725.55", Value.VStr "no"]] }

/-- A three-row table whose sex column is `["male", "female", "male"]`. -/
def sampleSexes : Table :=
  { header := ["sex"],
    rows := [[Value.VStr "male"], [Value.VStr "female"], [Value.VStr "male"]] }

/-- A four-row table whose region column is
`["west", "east", "west", "north"]`. -/
def sampleRegions : Table :=
  { header := ["region"],
    rows := [[Value.VStr "west"], [Value.VStr "east"], [Value.VStr "west"],
      [Value.VStr "north"]] }

/-- A processed table that has age, sex, region and charges columns but no
smoker column. -/
def sampleNoSmoker : Table :=
  { header := ["age", "sex", "region", "charges"],
    rows := [
      [Value.VInt 19, Value.VStr "female", Value.VStr "southwest",
        Value.VFloat (mkRat 422123 25)],
      [Value.VInt 18, Value.VStr "male", Value.VStr "southeast",
        Value.VFloat (mkRat 34511 20)]] }

/-! ### Helper lemmas: cell access and column assignment -/

theorem getD_set_ne (r : List Value) (i j : Nat) (v d : Value) (h : i ≠ j) :
    (r.set i v).getD j d = r.getD j d := by
  induction r generalizing i j with
  | nil => simp
  | cons a as ih =>
    cases i with
    | zero =>
      cases j with
      | zero => exact absurd rfl h
      | succ j2 => simp
    | succ i2 =>
      cases j with
      | zero => simp
      | succ j2 =>
        simp only [List.set_cons_succ, List.getD_cons_succ]
        exact ih i2 j2 (fun hh => h (by rw [hh]))

theorem getD_set_self (r : List Value) (i : Nat) (v d : Value) (h : i < r.length) :
    (r.set i v).getD i d = v := by
  induction r generalizing i with
  | nil => simp at h
  | cons a as ih =>
    cases i with
    | zero => simp
    | succ i2 =>
      simp only [List.set_cons_succ, List.getD_cons_succ]
      exact ih i2 (by simpa using h)

theorem setColRows_map_getD_ne (i j : Nat) (h : i ≠ j) (d : Value) :
    ∀ (rows : List (List Value)) (vs : List Value),
      (setColRows i rows vs).map (fun r => r.getD j d) =
        rows.map (fun r => r.getD j d) := by
  intro rows
  induction rows with
  | nil => intro vs; cases vs <;> simp [setColRows]
  | cons r rs ih =>
    intro vs
    cases vs with
    | nil => simp [setColRows]
    | cons v vs2 =>
      simp only [setColRows, List.map_cons]
      rw [getD_set_ne r i j v d h, ih vs2]

theorem setColRows_map_getD_self (i : Nat) (d : Value) :
    ∀ (rows : List (List Value)) (vs : List Value),
      rows.length = vs.length → (∀ r ∈ rows, i < r.length) →
      (setColRows i rows vs).map (fun r => r.getD i d) = vs := by
  intro rows
  induction rows with
  | nil =>
    intro vs hlen _
    cases vs with
    | nil => simp [setColRows]
    | cons v vs2 => simp at hlen
  | cons r rs ih =>
    intro vs hlen hlt
    cases vs with
    | nil => simp at hlen
    | cons v vs2 =>
      simp only [setColRows, List.map_cons]
      rw [getD_set_self r i v d (hlt r (by simp)), ih vs2 (by simpa using hlen)
        (fun r2 hr2 => hlt r2 (by simp [hr2]))]

theorem colIndex_lt_length (h : List String) (c : String) (hmem : c ∈ h) :
    colIndex h c < h.length := by
  induction h with
  | nil => simp at hmem
  | cons x xs ih =>
    by_cases hxc : x = c
    · simp [colIndex, hxc]
    · have : c ∈ xs := by
        rcases List.mem_cons.mp hmem with h1 | h1
        · exact absurd h1.symm hxc
        · exact h1
      simp only [colIndex, if_neg hxc, List.length_cons]
      exact Nat.succ_lt_succ (ih this)

theorem colIndex_ne_of_ne (h : List String) (c1 c2 : String) (hne : c1 ≠ c2)
    (h1 : c1 ∈ h) (h2 : c2 ∈ h) : colIndex h c1 ≠ colIndex h c2 := by
  induction h with
  | nil => simp at h1
  | cons x xs ih =>
    by_cases hx1 : x = c1
    · have hx2 : ¬ x = c2 := fun hh => hne (hx1 ▸ hh)
      simp only [colIndex, if_pos hx1, if_neg hx2]
      exact fun hh => Nat.succ_ne_zero _ hh.symm
    · by_cases hx2 : x = c2
      · simp only [colIndex, if_neg hx1, if_pos hx2]
        exact Nat.succ_ne_zero _
      · have m1 : c1 ∈ xs := by
          rcases List.mem_cons.mp h1 with hh | hh
          · exact absurd hh.symm hx1
          · exact hh
        have m2 : c2 ∈ xs := by
          rcases List.mem_cons.mp h2 with hh | hh
          · exact absurd hh.symm hx2
          · exact hh
        simp only [colIndex, if_neg hx1, if_neg hx2]
        exact fun hh => ih m1 m2 (Nat.succ_injective hh)

theorem col?_mem_header {t : Table} {c : String} {l : List Value}
    (h : t.col? c = some l) : c ∈ t.header := by
  by_cases hmem : c ∈ t.header
  · exact hmem
  · simp [Table.col?, hmem] at h

theorem col?_length {t : Table} {c : String} {l : List Value}
    (h : t.col? c = some l) : l.length = t.rows.length := by
  by_cases hmem : c ∈ t.header
  · simp only [Table.col?, if_pos hmem, Option.some_inj] at h
    rw [← h, List.length_map]
  · simp [Table.col?, hmem] at h

theorem setCol_header (t : Table) (c : String) (vs : List Value) :
    (t.setCol c vs).header = t.header := rfl

theorem setCol_col?_ne (t : Table) (c1 c2 : String) (vs : List Value)
    (hne : c1 ≠ c2) (h1 : c1 ∈ t.header) (h2 : c2 ∈ t.header) :
    (t.setCol c1 vs).col? c2 = t.col? c2 := by
  simp only [Table.col?, Table.setCol, if_pos h2]
  rw [setColRows_map_getD_ne _ _ (colIndex_ne_of_ne t.header c1 c2 hne h1 h2) _]

theorem setCol_col?_self (t : Table) (c : String) (vs : List Value)
    (hmem : c ∈ t.header) (hlen : t.rows.length = vs.length)
    (hrect : ∀ r ∈ t.rows, r.length = t.header.length) :
    (t.setCol c vs).col? c = some vs := by
  simp only [Table.col?, Table.setCol, if_pos hmem, Option.some_inj]
  exact setColRows_map_getD_self _ _ t.rows vs hlen
    (fun r hr => (hrect r hr) ▸ colIndex_lt_length t.header c hmem)

/-! ### Helper lemmas: all-or-nothing column conversion -/

theorem convList_none_of_mem {f : Value → Option Value} {l : List Value} {v : Value}
    (hv : v ∈ l) (hf : f v = none) : convList f l = none := by
  induction l with
  | nil => simp at hv
  | cons x xs ih =>
    rcases List.mem_cons.mp hv with hh | hh
    · subst hh; simp [convList, hf]
    · simp only [convList]
      rw [ih hh]
      cases f x <;> rfl

theorem convList_some_length {f : Value → Option Value} {l ws : List Value}
    (h : convList f l = some ws) : ws.length = l.length := by
  induction l generalizing ws with
  | nil => simp [convList] at h; simp [← h]
  | cons x xs ih =>
    simp only [convList] at h
    cases hfx : f x with
    | none => rw [hfx] at h; exact absurd h (by simp)
    | some w =>
      rw [hfx] at h
      cases hcv : convList f xs with
      | none => rw [hcv] at h; exact absurd h (by simp)
      | some ws2 =>
        rw [hcv] at h
        simp only [Option.some_inj] at h
        simp [← h, ih hcv]

/-- C1: if any value in the charges or age column cannot be converted to its
target numeric type, `process_data` fails with a type-conversion error, the
whole operation fails as a unit, and the Orchestrator never
reaches the Persister or the Analyzer: no output file is written. -/
theorem claim_C1 (t : Table) (chs ags : List Value)
    (hc : t.col? "charges" = some chs) (ha : t.col? "age" = some ags)
    (hbad : (∃ v ∈ chs, toFloatV v = none) ∨ (∃ v ∈ ags, toIntV v = none)) :
    ∃ e, process_data t = .error e ∧
      mainStartup t =
        { fileWritten := none, analyzerRan := false, errorMsg := some e } := by
  have hm1 : "charges" ∈ t.header := col?_mem_header hc
  have hm2 : "age" ∈ t.header := col?_mem_header ha
  cases hconv : convList toFloatV chs with
  | none =>
    have h1 : convertCol toFloatV t "charges" =
        .error "TypeConversionError: charges" := by
      simp [convertCol, hc, hconv]
    have h4 : process_data t = .error "TypeConversionError: charges" := by
      simp [process_data, process_data_state, h1]
    exact ⟨_, h4, by simp [mainStartup, h4]⟩
  | some ws =>
    rcases hbad with ⟨v, hv, hfv⟩ | ⟨v, hv, hfv⟩
    · rw [convList_none_of_mem hv hfv] at hconv
      exact absurd hconv (by simp)
    · have h1 : convertCol toFloatV t "charges" = .ok (t.setCol "charges" ws) := by
        simp [convertCol, hc, hconv]
      have hagecol : (t.setCol "charges" ws).col? "age" = some ags := by
        rw [setCol_col?_ne t "charges" "age" ws (by decide) hm1 hm2, ha]
      have h2 : convertCol toIntV (t.setCol "charges" ws) "age" =
          .error "TypeConversionError: age" := by
        simp [convertCol, hagecol, convList_none_of_mem hv hfv]
      have h4 : process_data t = .error "TypeConversionError: age" := by
        simp [process_data, process_data_state, h1, h2]
      exact ⟨_, h4, by simp [mainStartup, h4]⟩

theorem claim_C1_witness :
    ∃ e, process_data sampleBadAge = .error e ∧
      mainStartup sampleBadAge =
        { fileWritten := none, analyzerRan := false, errorMsg := some e } :=
  claim_C1 sampleBadAge [Value.VStr "1725.55"] [Value.VStr "abc"]
    (by decide) (by decide)
    (Or.inr ⟨Value.VStr "abc", by decide, by decide⟩)

/-- C9 (implicit): `process_data` converts charges before age and mutates the
table in place, so when the charges conversion succeeds and the age
conversion fails, it raises while the table of the caller already holds the
coerced floating-point charges column. -/
theorem claim_C9 (t : Table) (chs ags ws : List Value)
    (hrect : ∀ r ∈ t.rows, r.length = t.header.length)
    (hc : t.col? "charges" = some chs)
    (ha : t.col? "age" = some ags)
    (hok : convList toFloatV chs = some ws)
    (hbad : ∃ v ∈ ags, toIntV v = none) :
    process_data_state t =
      (t.setCol "charges" ws, some "TypeConversionError: age") ∧
    process_data t = .error "TypeConversionError: age" ∧
    (t.setCol "charges" ws).col? "charges" = some ws := by
  have hm1 : "charges" ∈ t.header := col?_mem_header hc
  have hm2 : "age" ∈ t.header := col?_mem_header ha
  rcases hbad with ⟨v, hv, hfv⟩
  have h1 : convertCol toFloatV t "charges" = .ok (t.setCol "charges" ws) := by
    simp [convertCol, hc, hok]
  have hagecol : (t.setCol "charges" ws).col? "age" = some ags := by
    rw [setCol_col?_ne t "charges" "age" ws (by decide) hm1 hm2, ha]
  have h2 : convertCol toIntV (t.setCol "charges" ws) "age" =
      .error "TypeConversionError: age" := by
    simp [convertCol, hagecol, convList_none_of_mem hv hfv]
  have h3 : process_data_state t =
      (t.setCol "charges" ws, some "TypeConversionError: age") := by
    simp [process_data_state, h1, h2]
  refine ⟨h3, by simp [process_data, h3], ?_⟩
  exact setCol_col?_self t "charges" ws hm1
    (by rw [← col?_length hc, convList_some_length hok]) hrect

/-! ### Helper lemmas: the executable rational operations are the textbook
ones -/

theorem qAdd_eq (a b : ℚ) : qAdd a b = a + b := by
  have ha : ((a.den : ℚ)) ≠ 0 := by exact_mod_cast a.den_nz
  have hb : ((b.den : ℚ)) ≠ 0 := by exact_mod_cast b.den_nz
  rw [qAdd, Rat.mkRat_eq_div]
  push_cast
  conv_rhs => rw [← Rat.num_div_den a, ← Rat.num_div_den b]
  rw [div_add_div _ _ ha hb]
  congr 1
  ring

theorem qSum_eq (l : List ℚ) : qSum l = l.sum := by
  induction l with
  | nil => rfl
  | cons q qs ih => rw [qSum, qAdd_eq, ih, List.sum_cons]

theorem qDivNat_eq (a : ℚ) (n : Nat) : qDivNat a n = a / (n : ℚ) := by
  rw [qDivNat, Rat.mkRat_eq_div]
  push_cast
  conv_rhs => rw [← Rat.num_div_den a]
  rw [div_div]

theorem round2_eq (q : ℚ) : round2 q = ((round (q * 100) : Int) : ℚ) / 100 := by
  have hd : ((q.den : ℚ)) ≠ 0 := by exact_mod_cast q.den_nz
  have key : q * 100 + 1 / 2 =
      ((200 * q.num + (q.den : Int) : Int) : ℚ) / ((2 * q.den : Nat) : ℚ) := by
    conv_lhs => rw [← Rat.num_div_den q]
    push_cast
    field_simp
    ring
  have hfl : (200 * q.num + (q.den : Int)) / (2 * (q.den : Int)) =
      round (q * 100) := by
    rw [round_eq, key, Rat.floor_intCast_div_natCast]
    push_cast
    rfl
  rw [round2, Rat.mkRat_eq_div, hfl]
  push_cast
  norm_num

theorem claim_C9_witness :
    (process_data_state sampleBadAge =
      (sampleBadAge.setCol "charges" [Value.VFloat (mkRat 34511 20)],
        some "TypeConversionError: age") ∧
    process_data sampleBadAge = .error "TypeConversionError: age" ∧
    (sampleBadAge.setCol "charges" [Value.VFloat (mkRat 34511 20)]).col? "charges" =
      some [Value.VFloat (mkRat 34511 20)]) ∧
    sampleBadAge.setCol "charges" [Value.VFloat (mkRat 34511 20)] ≠ sampleBadAge :=
  ⟨claim_C9 sampleBadAge [Value.VStr "1725.55"] [Value.VStr "abc"]
      [Value.VFloat (mkRat 34511 20)] (by decide) (by decide) (by decide)
      (by decide) ⟨Value.VStr "abc", by decide, by decide⟩,
    by decide⟩

/-- C2: every event of the steady-state polling loop re-analyzes and
re-visualizes exactly the in-memory table produced by the Transformer at
startup and captured into the scheduled callback; no load, transform or
persist event ever occurs in steady state. -/
theorem claim_C2 (t0 t1 : Table) (j : Job) (times : List Nat) (e : Event)
    (_hstart : process_data t0 = .ok t1)
    (hmem : e ∈ runLoop t1 j times) :
    e = Event.analyzeEv t1 ∨ e = Event.visualizeEv t1 := by
  induction times generalizing j with
  | nil => simp [runLoop] at hmem
  | cons now rest ih =>
    by_cases hle : j.nextRun ≤ now
    · simp only [runLoop, run_pending, if_pos hle, automatedEvents,
        List.cons_append, List.nil_append, List.mem_cons] at hmem
      rcases hmem with h | h | h
      · exact Or.inl h
      · exact Or.inr h
      · exact ih _ h
    · simp only [runLoop, run_pending, if_neg hle] at hmem
      exact ih _ hmem

theorem claim_C2_witness :
    process_data sampleTable = .ok sampleProcessed ∧
    Event.analyzeEv sampleProcessed ∈
      runLoop sampleProcessed { nextRun := nineAM } [nineAM] ∧
    (Event.analyzeEv sampleProcessed = Event.analyzeEv sampleProcessed ∨
      Event.analyzeEv sampleProcessed = Event.visualizeEv sampleProcessed) :=
  ⟨by decide, by decide,
    claim_C2 sampleTable sampleProcessed { nextRun := nineAM } [nineAM] _
      (by decide) (by decide)⟩

theorem fireTimes_nil (j : Job) :
    ∀ (n a : Nat), a + n ≤ j.nextRun → fireTimes j (pollTimes a n) = [] := by
  intro n
  induction n with
  | zero => intro a _; rfl
  | succ m ih =>
    intro a hle
    have hlt : ¬ j.nextRun ≤ a := by omega
    simp only [pollTimes, fireTimes, run_pending, if_neg hlt]
    exact ih (a + 1) (by omega)

/-- C8: with a single daily trigger and one-second polling over a window of
consecutive poll instants that starts at or before the trigger time, reaches
it, and ends before the occurrence on the next day, the callback fires exactly
once, at the first poll tick at or after the trigger time (zero whole-second
latency past the nominal time). -/
theorem claim_C8 (j : Job) (a n : Nat) (h1 : a ≤ j.nextRun)
    (h2 : j.nextRun < a + n) (h3 : a + n ≤ j.nextRun + secondsPerDay) :
    fireTimes j (pollTimes a n) = [j.nextRun] := by
  induction n generalizing a j with
  | zero => omega
  | succ m ih =>
    by_cases hle : j.nextRun ≤ a
    · have ha : a = j.nextRun := Nat.le_antisymm h1 hle
      simp only [pollTimes, fireTimes, run_pending, if_pos hle]
      rw [fireTimes_nil { nextRun := j.nextRun + secondsPerDay } m (a + 1)
        (show a + 1 + m ≤ j.nextRun + secondsPerDay by omega), ha]
    · simp only [pollTimes, fireTimes, run_pending, if_neg hle]
      exact ih j (a + 1) (by omega) (by omega) (by omega)

theorem claim_C8_witness :
    pollTimes 32399 3 = [32399, 32400, 32401] ∧
    nineAM = 32400 ∧
    fireTimes { nextRun := nineAM } (pollTimes 32399 3) = [nineAM] :=
  ⟨by decide, by decide,
    claim_C8 { nextRun := nineAM } 32399 3 (by decide) (by decide) (by decide)⟩

/-- C6: loading the grid written by the Persister gives back the table that
was passed in, provided every cell survives the render/parse round trip
(which the numeric coercion already applied guarantees for age and charges,
and non-numeric-looking text satisfies trivially); the written grid starts
with the header row and every record has exactly one field per column (no
row-index column). -/
theorem mapRoundtrip (rows : List (List Value))
    (h : ∀ r ∈ rows, ∀ v ∈ r, parseCell (render v) = v) :
    (rows.map (fun r => r.map render)).map (fun r => r.map parseCell) = rows := by
  induction rows with
  | nil => rfl
  | cons r rs ih =>
    simp only [List.map_cons, List.cons.injEq]
    constructor
    · rw [List.map_map]
      have h2 : ∀ v ∈ r, (parseCell ∘ render) v = v := fun v hv => h r (by simp) v hv
      rw [List.map_congr_left h2]
      simp
    · exact ih (fun r2 hr2 v hv => h r2 (by simp [hr2]) v hv)

theorem claim_C6 (t : Table)
    (hcells : ∀ r ∈ t.rows, ∀ v ∈ r, parseCell (render v) = v)
    (hrect : ∀ r ∈ t.rows, r.length = t.header.length) :
    load_data (save_data t) = .ok t ∧
    (save_data t).head? = some t.header ∧
    ∀ rec ∈ save_data t, rec.length = t.header.length := by
  refine ⟨?_, rfl, ?_⟩
  · simp only [save_data, load_data, Except.ok.injEq]
    rw [mapRoundtrip t.rows hcells]
  · intro rec hrec
    simp only [save_data, List.mem_cons, List.mem_map] at hrec
    rcases hrec with h | ⟨r, hr, hren⟩
    · rw [h]
    · rw [← hren, List.length_map]
      exact hrect r hr

theorem claim_C6_witness :
    (∀ r ∈ sampleProcessed.rows, ∀ v ∈ r, parseCell (render v) = v) ∧
    load_data (save_data sampleProcessed) = .ok sampleProcessed ∧
    (save_data sampleProcessed).head? = some sampleProcessed.header ∧
    ∀ rec ∈ save_data sampleProcessed,
      rec.length = sampleProcessed.header.length :=
  ⟨by decide, claim_C6 sampleProcessed (by decide) (by decide)⟩

/-! ### Helper lemmas: column means -/

theorem numsOf_of_all (l : List Value) (h : ∀ v ∈ l, (toQ v).isSome) :
    numsOf l = some (l.map toQD) := by
  induction l with
  | nil => rfl
  | cons v vs ih =>
    obtain ⟨q, hq⟩ := Option.isSome_iff_exists.mp (h v (by simp))
    rw [numsOf, ih (fun w hw => h w (by simp [hw])), hq]
    simp [toQD, hq]

theorem colMean_spec (l : List Value) (hne : l ≠ [])
    (h : ∀ v ∈ l, (toQ v).isSome) : colMean l = .ok (specMean l) := by
  cases l with
  | nil => exact absurd rfl hne
  | cons v vs =>
    have hn := numsOf_of_all (v :: vs) h
    simp only [List.map_cons] at hn
    simp only [colMean, hn]
    rw [qDivNat_eq, qSum_eq]
    simp [specMean, List.length_map]

/-- C5: for a non-empty numeric-coerced table, `analyze_ages` is the mean of
the age column rounded to 2 decimal places, and `average_charges` is the
mean of the charges column rounded to 2 decimal places. -/
theorem claim_C5 (t : Table) (ags chs : List Value)
    (ha : t.col? "age" = some ags) (hane : ags ≠ [])
    (haq : ∀ v ∈ ags, (toQ v).isSome)
    (hc : t.col? "charges" = some chs) (hcne : chs ≠ [])
    (hcq : ∀ v ∈ chs, (toQ v).isSome) :
    analyze_ages t = .ok (round2 (specMean ags)) ∧
    average_charges t = .ok (round2 (specMean chs)) := by
  constructor
  · simp [analyze_ages, ha, colMean_spec ags hane haq]
  · simp [average_charges, hc, colMean_spec chs hcne hcq]

theorem claim_C5_witness :
    analyze_ages sampleProcessed =
      .ok (round2 (specMean [Value.VInt 19, Value.VInt 18])) ∧
    average_charges sampleProcessed =
      .ok (round2 (specMean
        [Value.VFloat (mkRat 422123 25), Value.VFloat (mkRat 34511 20)])) :=
  claim_C5 sampleProcessed [Value.VInt 19, Value.VInt 18]
    [Value.VFloat (mkRat 422123 25), Value.VFloat (mkRat 34511 20)]
    (by decide) (by decide) (by decide) (by decide) (by decide) (by decide)

/-! ### Helper lemmas: first-encounter deduplication and stable descending
sort -/

theorem pdUniqueF_congr (fuel : Nat) :
    ∀ l : List Value, l.length ≤ fuel → pdUniqueF fuel l = pdUniqueF l.length l := by
  induction fuel using Nat.strong_induction_on with
  | _ fuel ih =>
    intro l hl
    cases l with
    | nil => cases fuel <;> rfl
    | cons x xs =>
      cases fuel with
      | zero => simp at hl
      | succ m =>
        have hxs : xs.length ≤ m := by simpa using hl
        have hF : (xs.filter (fun y => y != x)).length ≤ xs.length :=
          List.length_filter_le _ _
        rw [pdUniqueF, show (x :: xs).length = xs.length + 1 from rfl, pdUniqueF,
          ih m (Nat.lt_succ_self m) _ (Nat.le_trans hF hxs),
          ih xs.length (Nat.lt_succ_of_le hxs) _ hF]

theorem pdUnique_cons (x : Value) (xs : List Value) :
    pdUnique (x :: xs) = x :: pdUnique (xs.filter (fun y => y != x)) := by
  show pdUniqueF (x :: xs).length (x :: xs) = _
  rw [show (x :: xs).length = xs.length + 1 from rfl, pdUniqueF, pdUnique,
    pdUniqueF_congr xs.length _ (List.length_filter_le _ _)]

/-- Induction along the recursion pattern of `pdUnique`. -/
theorem pdUnique_ind (motive : List Value → Prop) (h0 : motive [])
    (h1 : ∀ x xs, motive (xs.filter (fun y => y != x)) → motive (x :: xs)) :
    ∀ l : List Value, motive l := by
  have H : ∀ (n : Nat) (l : List Value), l.length ≤ n → motive l := by
    intro n
    induction n with
    | zero =>
      intro l hl
      rw [List.length_eq_zero.mp (Nat.le_zero.mp hl)]
      exact h0
    | succ m ih =>
      intro l hl
      cases l with
      | nil => exact h0
      | cons x xs =>
        refine h1 x xs (ih _ ?_)
        exact Nat.le_trans (List.length_filter_le _ _) (by simpa using hl)
  exact fun l => H l.length l (Nat.le_refl _)

theorem pdUnique_mem (l : List Value) (v : Value) : v ∈ pdUnique l ↔ v ∈ l := by
  induction l using pdUnique_ind with
  | h0 => simp [pdUnique, pdUniqueF]
  | h1 x xs ih =>
    rw [pdUnique_cons]
    simp only [List.mem_cons]
    constructor
    · rintro (h | h)
      · exact Or.inl h
      · exact Or.inr (List.mem_of_mem_filter (ih.mp h))
    · rintro (h | h)
      · exact Or.inl h
      · by_cases hvx : v = x
        · exact Or.inl hvx
        · exact Or.inr (ih.mpr (List.mem_filter.mpr ⟨h, by simp [hvx]⟩))

theorem pdUnique_nodup (l : List Value) : (pdUnique l).Nodup := by
  induction l using pdUnique_ind with
  | h0 => simp [pdUnique, pdUniqueF]
  | h1 x xs ih =>
    rw [pdUnique_cons]
    refine List.nodup_cons.mpr ⟨?_, ih⟩
    intro hx
    have := (List.mem_filter.mp ((pdUnique_mem _ x).mp hx)).2
    simp at this

theorem firstIdx_filter_lt (p : Value → Bool) (xs : List Value) (a b : Value)
    (ha : a ∈ xs.filter p) (hb : b ∈ xs.filter p)
    (hlt : firstIdx (xs.filter p) a < firstIdx (xs.filter p) b) :
    firstIdx xs a < firstIdx xs b := by
  induction xs with
  | nil => simp at ha
  | cons y ys ih =>
    rw [List.filter_cons] at ha hb hlt
    by_cases hpy : p y
    · rw [if_pos hpy] at ha hb hlt
      by_cases hay : y = a
      · have hby : ¬ y = b := by
          intro hyb
          rw [firstIdx, if_pos hay, firstIdx, if_pos hyb] at hlt
          exact Nat.lt_irrefl 0 hlt
        rw [firstIdx, if_pos hay]
        rw [firstIdx, if_neg hby]
        exact Nat.succ_pos _
      · have hby : ¬ y = b := by
          intro hyb
          rw [firstIdx, if_neg hay, firstIdx, if_pos hyb] at hlt
          exact Nat.not_succ_le_zero _ hlt
        rw [firstIdx, if_neg hay, firstIdx, if_neg hby] at hlt ⊢
        have ha2 : a ∈ ys.filter p := by
          rcases List.mem_cons.mp ha with h | h
          · exact absurd h.symm hay
          · exact h
        have hb2 : b ∈ ys.filter p := by
          rcases List.mem_cons.mp hb with h | h
          · exact absurd h.symm hby
          · exact h
        exact Nat.succ_lt_succ (ih ha2 hb2 (Nat.lt_of_succ_lt_succ hlt))
    · rw [if_neg hpy] at ha hb hlt
      have hay : ¬ y = a := by
        intro hya
        exact hpy (by rw [hya]; exact (List.mem_filter.mp ha).2)
      have hby : ¬ y = b := by
        intro hyb
        exact hpy (by rw [hyb]; exact (List.mem_filter.mp hb).2)
      rw [firstIdx, if_neg hay, firstIdx, if_neg hby]
      exact Nat.succ_lt_succ (ih ha hb hlt)

theorem pdUnique_pairwise (l : List Value) :
    (pdUnique l).Pairwise (fun a b => firstIdx l a < firstIdx l b) := by
  induction l using pdUnique_ind with
  | h0 => simp [pdUnique, pdUniqueF]
  | h1 x xs ih =>
    rw [pdUnique_cons]
    refine List.pairwise_cons.mpr ⟨?_, ?_⟩
    · intro b hb
      have hbf := (pdUnique_mem _ b).mp hb
      have hbx : ¬ x = b := by
        intro hxb
        have := (List.mem_filter.mp hbf).2
        simp [← hxb] at this
      rw [firstIdx, if_pos rfl, firstIdx, if_neg hbx]
      exact Nat.succ_pos _
    · refine List.Pairwise.imp_of_mem ?_ ih
      intro a b hma hmb hlt
      have haf := (pdUnique_mem _ a).mp hma
      have hbf := (pdUnique_mem _ b).mp hmb
      have hax : ¬ x = a := by
        intro hxa
        have := (List.mem_filter.mp haf).2
        simp [← hxa] at this
      have hbx : ¬ x = b := by
        intro hxb
        have := (List.mem_filter.mp hbf).2
        simp [← hxb] at this
      rw [firstIdx, if_neg hax, firstIdx, if_neg hbx]
      exact Nat.succ_lt_succ (firstIdx_filter_lt _ xs a b haf hbf hlt)

theorem mem_insertDesc (p x : Value × Nat) (s : List (Value × Nat)) :
    x ∈ insertDesc p s ↔ x = p ∨ x ∈ s := by
  induction s with
  | nil => simp [insertDesc]
  | cons q qs ih =>
    rw [insertDesc]
    by_cases hlt : p.2 < q.2
    · rw [if_pos hlt]
      simp only [List.mem_cons, ih]
      tauto
    · rw [if_neg hlt]
      simp only [List.mem_cons]

theorem mem_sortCountsDesc (x : Value × Nat) (l : List (Value × Nat)) :
    x ∈ sortCountsDesc l ↔ x ∈ l := by
  induction l with
  | nil => simp [sortCountsDesc]
  | cons p ps ih =>
    rw [sortCountsDesc, mem_insertDesc]
    simp only [List.mem_cons, ih]

theorem insertDesc_pairwise (f : Value → Nat) (p : Value × Nat)
    (s : List (Value × Nat))
    (hs : s.Pairwise (fun a b => b.2 < a.2 ∨ (a.2 = b.2 ∧ f a.1 < f b.1)))
    (hf : ∀ q ∈ s, f p.1 < f q.1) :
    (insertDesc p s).Pairwise
      (fun a b => b.2 < a.2 ∨ (a.2 = b.2 ∧ f a.1 < f b.1)) := by
  induction s with
  | nil => simp [insertDesc]
  | cons q qs ih =>
    rw [insertDesc]
    rcases List.pairwise_cons.mp hs with ⟨hq, hqs⟩
    by_cases hlt : p.2 < q.2
    · rw [if_pos hlt]
      refine List.pairwise_cons.mpr ⟨?_, ih hqs (fun r hr => hf r (by simp [hr]))⟩
      intro x hx
      rcases (mem_insertDesc p x qs).mp hx with rfl | hxqs
      · exact Or.inl hlt
      · exact hq x hxqs
    · rw [if_neg hlt]
      have hge : q.2 ≤ p.2 := Nat.le_of_not_lt hlt
      refine List.pairwise_cons.mpr ⟨?_, hs⟩
      intro x hx
      rcases List.mem_cons.mp hx with rfl | hxqs
      · rcases Nat.lt_or_ge x.2 p.2 with h | h
        · exact Or.inl h
        · exact Or.inr ⟨Nat.le_antisymm h hge, hf x (by simp)⟩
      · rcases hq x hxqs with h | ⟨heq, _⟩
        · exact Or.inl (Nat.lt_of_lt_of_le h hge)
        · rcases Nat.lt_or_ge x.2 p.2 with h2 | h2
          · exact Or.inl h2
          · have hxp : p.2 = x.2 := Nat.le_antisymm h2 (heq ▸ hge)
            exact Or.inr ⟨hxp, hf x (by simp [hxqs])⟩

theorem sortCountsDesc_pairwise (f : Value → Nat) (l : List (Value × Nat))
    (hl : l.Pairwise (fun a b => f a.1 < f b.1)) :
    (sortCountsDesc l).Pairwise
      (fun a b => b.2 < a.2 ∨ (a.2 = b.2 ∧ f a.1 < f b.1)) := by
  induction l with
  | nil => simp [sortCountsDesc]
  | cons p ps ih =>
    rcases List.pairwise_cons.mp hl with ⟨hp, hps⟩
    exact insertDesc_pairwise f p _ (ih hps)
      (fun q hq => hp q ((mem_sortCountsDesc q ps).mp hq))

/-- C3: `analyze_sexes` maps each distinct sex value to its row count, in
descending order of frequency with ties in first-encounter order. -/
theorem claim_C3 (t : Table) (l : List Value) (h : t.col? "sex" = some l) :
    analyze_sexes t = .ok (value_counts l) ∧
    (∀ p ∈ value_counts l, p.2 = l.count p.1) ∧
    (∀ v, v ∈ l ↔ ∃ n, (v, n) ∈ value_counts l) ∧
    (value_counts l).Pairwise
      (fun p q => q.2 < p.2 ∨ (p.2 = q.2 ∧ firstIdx l p.1 < firstIdx l q.1)) := by
  refine ⟨by simp [analyze_sexes, h], ?_, ?_, ?_⟩
  · intro p hp
    have hp2 := (mem_sortCountsDesc p _).mp hp
    obtain ⟨v, _, rfl⟩ := List.mem_map.mp hp2
    rfl
  · intro v
    constructor
    · intro hv
      refine ⟨l.count v, (mem_sortCountsDesc _ _).mpr ?_⟩
      exact List.mem_map.mpr ⟨v, (pdUnique_mem l v).mpr hv, rfl⟩
    · rintro ⟨n, hn⟩
      have hn2 := (mem_sortCountsDesc _ _).mp hn
      obtain ⟨w, hw, hww⟩ := List.mem_map.mp hn2
      have : w = v := congrArg Prod.fst hww
      exact (pdUnique_mem l v).mp (this ▸ hw)
  · apply sortCountsDesc_pairwise
    rw [List.pairwise_map]
    exact pdUnique_pairwise l

theorem claim_C3_witness :
    (analyze_sexes sampleSexes =
      .ok (value_counts
        [Value.VStr "male", Value.VStr "female", Value.VStr "male"]) ∧
    (∀ p ∈ value_counts
        [Value.VStr "male", Value.VStr "female", Value.VStr "male"],
      p.2 = [Value.VStr "male", Value.VStr "female",
        Value.VStr "male"].count p.1) ∧
    (∀ v, v ∈ [Value.VStr "male", Value.VStr "female", Value.VStr "male"] ↔
      ∃ n, (v, n) ∈ value_counts
        [Value.VStr "male", Value.VStr "female", Value.VStr "male"]) ∧
    (value_counts
        [Value.VStr "male", Value.VStr "female", Value.VStr "male"]).Pairwise
      (fun p q => q.2 < p.2 ∨ (p.2 = q.2 ∧
        firstIdx [Value.VStr "male", Value.VStr "female",
          Value.VStr "male"] p.1 <
        firstIdx [Value.VStr "male", Value.VStr "female",
          Value.VStr "male"] q.1))) ∧
    value_counts [Value.VStr "male", Value.VStr "female", Value.VStr "male"] =
      [(Value.VStr "male", 2), (Value.VStr "female", 1)] :=
  ⟨claim_C3 sampleSexes
    [Value.VStr "male", Value.VStr "female", Value.VStr "male"] (by decide),
    by decide⟩

/-- C4: `unique_regions` returns the distinct region values with no
duplicates, ordered by first encounter in the input. -/
theorem claim_C4 (t : Table) (l : List Value)
    (h : t.col? "region" = some l) :
    unique_regions t = .ok (pdUnique l) ∧
    (pdUnique l).Nodup ∧
    (∀ v, v ∈ pdUnique l ↔ v ∈ l) ∧
    (pdUnique l).Pairwise (fun a b => firstIdx l a < firstIdx l b) :=
  ⟨by simp [unique_regions, h], pdUnique_nodup l,
    fun v => pdUnique_mem l v, pdUnique_pairwise l⟩

theorem claim_C4_witness :
    (unique_regions sampleRegions =
      .ok (pdUnique [Value.VStr "west", Value.VStr "east", Value.VStr "west",
        Value.VStr "north"]) ∧
    (pdUnique [Value.VStr "west", Value.VStr "east", Value.VStr "west",
      Value.VStr "north"]).Nodup ∧
    (∀ v, v ∈ pdUnique [Value.VStr "west", Value.VStr "east",
        Value.VStr "west", Value.VStr "north"] ↔
      v ∈ [Value.VStr "west", Value.VStr "east", Value.VStr "west",
        Value.VStr "north"]) ∧
    (pdUnique [Value.VStr "west", Value.VStr "east", Value.VStr "west",
      Value.VStr "north"]).Pairwise
      (fun a b =>
        firstIdx [Value.VStr "west", Value.VStr "east", Value.VStr "west",
          Value.VStr "north"] a <
        firstIdx [Value.VStr "west", Value.VStr "east", Value.VStr "west",
          Value.VStr "north"] b)) ∧
    pdUnique [Value.VStr "west", Value.VStr "east", Value.VStr "west",
      Value.VStr "north"] =
      [Value.VStr "west", Value.VStr "east", Value.VStr "north"] :=
  ⟨claim_C4 sampleRegions
    [Value.VStr "west", Value.VStr "east", Value.VStr "west",
      Value.VStr "north"] (by decide),
    by decide⟩

/-- C7: every rendering failure inside the Visualizer is recorded in the
logged outcome and swallowed rather than propagated — `automated_analysis`
still succeeds whenever the Analyzer stage did — while the Analyzer stage
(like every other stage) re-raises its errors. -/
theorem claim_C7 :
    (∀ (t : Table) (e : String),
      chartByGroup t "region" = .error e →
      visualize_data t = { chartsShown := 0, loggedError := some e }) ∧
    (∀ (t : Table) (x : List (Value × ℚ)) (e : String),
      chartByGroup t "region" = .ok x →
      chartByGroup t "smoker" = .error e →
      visualize_data t = { chartsShown := 1, loggedError := some e }) ∧
    (∀ (t : Table) (e : String) (r : Report),
      (visualize_data t).loggedError = some e →
      analysisReport t = .ok r →
      automated_analysis t = .ok (r, visualize_data t)) ∧
    (∀ (t : Table) (e : String),
      analysisReport t = .error e → automated_analysis t = .error e) := by
  refine ⟨?_, ?_, ?_, ?_⟩
  · intro t e h
    simp [visualize_data, h]
  · intro t x e h1 h2
    simp [visualize_data, h1, h2]
  · intro t e r _ hr
    simp [automated_analysis, hr]
  · intro t e hr
    simp [automated_analysis, hr]

theorem claim_C7_witness :
    automated_analysis sampleNoSmoker =
      .ok ({ avgAge := mkRat 37 2,
             sexDist := [(Value.VStr "female", 1), (Value.VStr "male", 1)],
             avgCharges := mkRat 232631 25,
             regions := [Value.VStr "southwest", Value.VStr "southeast"] },
        visualize_data sampleNoSmoker) :=
  claim_C7.2.2.1 sampleNoSmoker "KeyError: smoker"
    { avgAge := mkRat 37 2,
      sexDist := [(Value.VStr "female", 1), (Value.VStr "male", 1)],
      avgCharges := mkRat 232631 25,
      regions := [Value.VStr "southwest", Value.VStr "southeast"] }
    (by decide) (by decide)

/-! ### Helper lemmas: grouped means -/

theorem groupRows_sub (ks cs : List Value) (g v : Value)
    (h : v ∈ groupRows ks cs g) : v ∈ cs := by
  simp only [groupRows, List.mem_map] at h
  obtain ⟨⟨k, c⟩, hp, rfl⟩ := h
  exact (List.of_mem_zip (List.mem_of_mem_filter hp)).2

theorem groupRows_ne_nil (ks : List Value) :
    ∀ (cs : List Value) (g : Value), g ∈ ks → ks.length = cs.length →
      groupRows ks cs g ≠ [] := by
  induction ks with
  | nil => intro cs g hg _; simp at hg
  | cons k ks2 ih =>
    intro cs g hg hlen
    cases cs with
    | nil => simp at hlen
    | cons c cs2 =>
      simp only [groupRows, List.zip_cons_cons, List.filter_cons]
      by_cases hkg : (k, c).1 == g
      · rw [if_pos hkg]
        simp
      · rw [if_neg hkg]
        have hgk : g ∈ ks2 := by
          rcases List.mem_cons.mp hg with h | h
          · exact absurd (by simp [h]) hkg
          · exact h
        exact ih cs2 g hgk (by simpa using hlen)

theorem groupMeans_ok (ks cs : List Value) :
    ∀ gs : List Value,
      (∀ g ∈ gs, ∃ m, colMean (groupRows ks cs g) = .ok m) →
      ∃ res, groupMeans ks cs gs = .ok res := by
  intro gs
  induction gs with
  | nil => intro _; exact ⟨[], rfl⟩
  | cons g gs2 ih =>
    intro h
    obtain ⟨m, hm⟩ := h g (by simp)
    obtain ⟨res, hres⟩ := ih (fun g2 hg2 => h g2 (by simp [hg2]))
    exact ⟨(g, m) :: res, by simp [groupMeans, hm, hres]⟩

/-- C10 (implicit): on a table having age, sex, region and charges columns
but no smoker column, the four Analyzer queries all succeed, the region
chart renders, the KeyError for the missing smoker column is caught and
logged inside the Visualizer, and `automated_analysis` completes without
raising. -/
theorem claim_C10 (t : Table) (ags sxs rgs chs : List Value)
    (hs : t.col? "smoker" = none)
    (ha : t.col? "age" = some ags) (hane : ags ≠ [])
    (haq : ∀ v ∈ ags, (toQ v).isSome)
    (hsx : t.col? "sex" = some sxs)
    (hr : t.col? "region" = some rgs)
    (hc : t.col? "charges" = some chs) (hcne : chs ≠ [])
    (hcq : ∀ v ∈ chs, (toQ v).isSome) :
    ∃ r, analysisReport t = .ok r ∧
      visualize_data t = { chartsShown := 1, loggedError := some "KeyError: smoker" } ∧
      automated_analysis t =
        .ok (r, { chartsShown := 1, loggedError := some "KeyError: smoker" }) := by
  have hages : analyze_ages t = .ok (round2 (specMean ags)) := by
    simp [analyze_ages, ha, colMean_spec ags hane haq]
  have hsex : analyze_sexes t = .ok (value_counts sxs) := by
    simp [analyze_sexes, hsx]
  have hch : average_charges t = .ok (round2 (specMean chs)) := by
    simp [average_charges, hc, colMean_spec chs hcne hcq]
  have hreg : unique_regions t = .ok (pdUnique rgs) := by
    simp [unique_regions, hr]
  have hrep : analysisReport t = .ok
      { avgAge := round2 (specMean ags), sexDist := value_counts sxs,
        avgCharges := round2 (specMean chs), regions := pdUnique rgs } := by
    simp [analysisReport, hages, hsex, hch, hreg]
  have hlen : rgs.length = chs.length := by
    rw [col?_length hr, col?_length hc]
  have hok : ∀ g ∈ pdUnique rgs, ∃ m, colMean (groupRows rgs chs g) = .ok m := by
    intro g hg
    have hgr : g ∈ rgs := (pdUnique_mem rgs g).mp hg
    exact ⟨specMean (groupRows rgs chs g),
      colMean_spec _ (groupRows_ne_nil rgs chs g hgr hlen)
        (fun v hv => hcq v (groupRows_sub rgs chs g v hv))⟩
  obtain ⟨res, hres⟩ := groupMeans_ok rgs chs (pdUnique rgs) hok
  have hc1 : chartByGroup t "region" = .ok res := by
    simp [chartByGroup, hr, hc, hres]
  have hc2 : chartByGroup t "smoker" = .error "KeyError: smoker" := by
    simp [chartByGroup, hs]
  have hviz : visualize_data t =
      { chartsShown := 1, loggedError := some "KeyError: smoker" } := by
    simp [visualize_data, hc1, hc2]
  exact ⟨_, hrep, hviz, by simp [automated_analysis, hrep, hviz]⟩

theorem claim_C10_witness :
    sampleNoSmoker.col? "smoker" = none ∧
    ∃ r, analysisReport sampleNoSmoker = .ok r ∧
      visualize_data sampleNoSmoker =
        { chartsShown := 1, loggedError := some "KeyError: smoker" } ∧
      automated_analysis sampleNoSmoker =
        .ok (r, { chartsShown := 1, loggedError := some "KeyError: smoker" }) :=
  ⟨by decide,
    claim_C10 sampleNoSmoker [Value.VInt 19, Value.VInt 18]
      [Value.VStr "female", Value.VStr "male"]
      [Value.VStr "southwest", Value.VStr "southeast"]
      [Value.VFloat (mkRat 422123 25), Value.VFloat (mkRat 34511 20)]
      (by decide) (by decide) (by decide) (by decide) (by decide) (by decide)
      (by decide) (by decide) (by decide)⟩

end Insurance
